import Mathlib

/-!
Shallow embedding of the cluster dependency-graph structure from
`src/cluster_linearize.h` (namespace `cluster_linearize`), together with
proofs of the specified properties.

Modelling conventions:
* The opaque indexed-set capability `S` (a fixed-capacity bitset in the
  C++ code, not part of the shown sources) is modelled as `Finset ℕ`,
  following the capability contract: singleton construction, membership
  test, union (`|=`), set-difference (`/=`), non-empty-intersection test
  (`&&`), `Set`/`Reset` of one index, equality, and iteration over member
  indices in ascending order.
* `FeeFrac` (from `util/feefrac.h`, not part of the shown sources) is
  modelled from the spec as an opaque (fee, size) pair with componentwise
  addition and zero.
* Vectors of entries become `List Entry`; the C++ loops that update
  entries in place become index-aware maps (`List.mapIdx`) or folds.
  Out-of-range reads (undefined behaviour in C++) read a default entry
  with empty sets via `List.getD`.
-/

/-- Modelled from the spec: `FeeFrac` (fee, size pair) from
`util/feefrac.h`, which is not among the shown sources.  The spec only
requires an opaque value type with componentwise addition and a zero
value; fees and sizes are modelled as unbounded integers. -/
@[ext]
structure FeeFrac where
  fee : Int
  size : Int
deriving DecidableEq, Repr

instance : Zero FeeFrac := ⟨⟨0, 0⟩⟩

instance : Add FeeFrac := ⟨fun a b => ⟨a.fee + b.fee, a.size + b.size⟩⟩

instance : AddCommMonoid FeeFrac where
  add_assoc a b c := by
    refine FeeFrac.ext ?_ ?_
    · show a.fee + b.fee + c.fee = a.fee + (b.fee + c.fee)
      exact add_assoc _ _ _
    · show a.size + b.size + c.size = a.size + (b.size + c.size)
      exact add_assoc _ _ _
  zero_add a := by
    refine FeeFrac.ext ?_ ?_
    · show 0 + a.fee = a.fee
      exact zero_add _
    · show 0 + a.size = a.size
      exact zero_add _
  add_zero a := by
    refine FeeFrac.ext ?_ ?_
    · show a.fee + 0 = a.fee
      exact add_zero _
    · show a.size + 0 = a.size
      exact add_zero _
  add_comm a b := by
    refine FeeFrac.ext ?_ ?_
    · show a.fee + b.fee = b.fee + a.fee
      exact add_comm _ _
    · show a.size + b.size = b.size + a.size
      exact add_comm _ _
  nsmul := nsmulRec

/-- Ascending enumeration of the members of a finite set of naturals;
this models the C++ bitset iterator, which visits set members in
increasing index order. -/
def ascMembers (s : Finset ℕ) : List ℕ :=
  (List.range (s.sup id + 1)).filter (fun a => a ∈ s)

/-- Information about a single transaction (`DepGraph::Entry`). -/
@[ext]
structure Entry where
  feerate : FeeFrac
  ancestors : Finset ℕ
  descendants : Finset ℕ
deriving DecidableEq

instance : Inhabited Entry := ⟨⟨⟨0, 0⟩, ∅, ∅⟩⟩

/-- Cluster input type: `cluster[i].first` is transaction i's fee and
size, `cluster[i].second` is the set of direct parents of i. -/
abbrev Cluster : Type := List (FeeFrac × Finset ℕ)

instance : Inhabited (FeeFrac × Finset ℕ) := ⟨(⟨0, 0⟩, ∅)⟩

/-- Direct-parent set of index `i` in a cluster (empty beyond the end). -/
def dparents (cluster : Cluster) (i : ℕ) : Finset ℕ :=
  (List.getD cluster i default).2

/-- Transaction-graph data: one `Entry` per transaction, in order. -/
structure DepGraph where
  entries : List Entry
deriving DecidableEq

namespace DepGraph

/-- Number of transactions in the graph (`DepGraph::TxCount`). -/
def TxCount (g : DepGraph) : ℕ := g.entries.length

/-- Feerate of transaction `i` (`DepGraph::FeeRate(ClusterIndex)`). -/
def FeeRate (g : DepGraph) (i : ℕ) : FeeFrac :=
  (g.entries.getD i default).feerate

/-- Ancestor set of transaction `i` (`DepGraph::Ancestors`). -/
def Ancestors (g : DepGraph) (i : ℕ) : Finset ℕ :=
  (g.entries.getD i default).ancestors

/-- Descendant set of transaction `i` (`DepGraph::Descendants`). -/
def Descendants (g : DepGraph) (i : ℕ) : Finset ℕ :=
  (g.entries.getD i default).descendants

/-- First phase of `DepGraph::DepGraph(cluster)`: fill in fee, size and
parent information, making each transaction an ancestor of itself
(`entries[i].ancestors = cluster[i].second; entries[i].ancestors.Set(i)`). -/
def initEntries (cluster : Cluster) : List Entry :=
  List.mapIdx (fun i c => ⟨c.1, insert i c.2, ∅⟩) cluster

/-- One iteration (at outer index `i`) of the ancestor-propagation sweep
of `DepGraph::DepGraph(cluster)`: `to_merge` is a copy of
`entries[i].ancestors`; every `j` with `entries[j].ancestors[i]` gets
`entries[j].ancestors |= to_merge`.  (The only in-place update that
could affect `to_merge` is the self-union at `j = i`, which is a no-op,
so taking the copy up front is exact.) -/
def ancSweepStep (es : List Entry) (i : ℕ) : List Entry :=
  List.mapIdx (fun _ e =>
    if i ∈ e.ancestors
    then { e with ancestors := e.ancestors ∪ (es.getD i default).ancestors } else e) es

/-- Ancestor-propagation sweep of `DepGraph::DepGraph(cluster)`:
`for (i = 0; i < entries.size(); ++i)` applying `ancSweepStep`. -/
def ancSweep (es : List Entry) : List Entry :=
  (List.range es.length).foldl ancSweepStep es

/-- One iteration (at outer index `i`) of the descendant-filling loop of
`DepGraph::DepGraph(cluster)`: `for (auto j : entries[i].ancestors)
entries[j].descendants.Set(i)`, rendered as the index-aware map that
inserts `i` into the descendant set of every `j ∈ entries[i].ancestors`. -/
def descFillStep (es : List Entry) (i : ℕ) : List Entry :=
  List.mapIdx (fun j e =>
    if j ∈ (es.getD i default).ancestors
    then { e with descendants := insert i e.descendants } else e) es

/-- Descendant-filling loop of `DepGraph::DepGraph(cluster)`. -/
def descFill (es : List Entry) : List Entry :=
  (List.range es.length).foldl descFillStep es

/-- Constructor `DepGraph::DepGraph(const Cluster&)`: fill in fee, size
and parent information, propagate ancestor information, then fill in
descendant information. -/
def ofCluster (cluster : Cluster) : DepGraph :=
  ⟨descFill (ancSweep (initEntries cluster))⟩

/-- Constructor `DepGraph::DepGraph(ClusterIndex ntx)`: `ntx` entries,
each an ancestor and descendant of itself only. -/
def ofSize (ntx : ℕ) : DepGraph :=
  ⟨(List.range ntx).map (fun i => ⟨⟨0, 0⟩, {i}, {i}⟩)⟩

/-- `DepGraph::AddTransaction`: append one unconnected transaction and
return its index. -/
def AddTransaction (g : DepGraph) (feefrac : FeeFrac) : DepGraph × ℕ :=
  (⟨g.entries ++ [⟨feefrac, {g.TxCount}, {g.TxCount}⟩]⟩, g.TxCount)

/-- `DepGraph::AddDependency(parent, child)`: to each ancestor of the
parent, add as descendants the descendants of the child; then to each
descendant of the child, add as ancestors the ancestors of the parent.
In the C++ code `chl_des` and `par_anc` are references and the second
loop iterates over the then-current `Descendants(child)`; the first loop
can change `entries[child].descendants` only by the self-union at
`anc_of_par = child` and the second can change `entries[parent].ancestors`
only by the self-union at `dec_of_chl = parent`, both no-ops, so reading
all four sets from the incoming graph is exact. -/
def AddDependency (g : DepGraph) (parent child : ℕ) : DepGraph :=
  let es1 := List.mapIdx (fun a e =>
    if a ∈ g.Ancestors parent
    then { e with descendants := e.descendants ∪ g.Descendants child } else e) g.entries
  let es2 := List.mapIdx (fun d e =>
    if d ∈ g.Descendants child
    then { e with ancestors := e.ancestors ∪ g.Ancestors parent } else e) es1
  ⟨es2⟩

/-- `DepGraph::GetReducedParents(i)`: start from `Ancestors(i)` with `i`
reset; iterate over the members `a` of that initial set in ascending
order, and for each `a` still present, subtract `Ancestors(a)` and
re-set `a` itself. -/
def GetReducedParents (g : DepGraph) (i : ℕ) : Finset ℕ :=
  let ret0 := (g.Ancestors i).erase i
  (ascMembers ret0).foldl
    (fun ret a => if a ∈ ret then insert a (ret \ g.Ancestors a) else ret) ret0

/-- `DepGraph::GetReducedChildren(i)`: descendant-side mirror of
`GetReducedParents`. -/
def GetReducedChildren (g : DepGraph) (i : ℕ) : Finset ℕ :=
  let ret0 := (g.Descendants i).erase i
  (ascMembers ret0).foldl
    (fun ret a => if a ∈ ret then insert a (ret \ g.Descendants a) else ret) ret0

/-- `DepGraph::FeeRate(const S&)`: aggregate feerate of a set of nodes,
accumulated with `+=` over the members (addition is commutative, so the
iteration order is irrelevant). -/
def FeeRateSet (g : DepGraph) (elems : Finset ℕ) : FeeFrac :=
  elems.sum (fun pos => g.FeeRate pos)

/-- `DepGraph::IsAcyclic()`: for every `i`, check
`(Ancestors(i) & Descendants(i)) == S::Singleton(i)`. -/
def IsAcyclic (g : DepGraph) : Bool :=
  (List.range g.TxCount).all
    (fun i => decide (g.Ancestors i ∩ g.Descendants i = {i}))

/-- `DepGraph::CanAddDependency(parent, child)`: reject if the edge is
redundant (`child ∈ Descendants(parent)`) or would create a cycle
(`child ∈ Ancestors(parent)`); otherwise scan `Ancestors(parent)` and
reject when some ancestor `i` has `Descendants(i) && Descendants(child)`
and `GetReducedChildren(i) && Descendants(child)` (the `&&` operator on
sets is the non-empty-intersection test). -/
def CanAddDependency (g : DepGraph) (parent child : ℕ) : Bool :=
  if child ∈ g.Descendants parent then false
  else if child ∈ g.Ancestors parent then false
  else (ascMembers (g.Ancestors parent)).all (fun i =>
    !(decide (g.Descendants i ∩ g.Descendants child).Nonempty &&
      decide (GetReducedChildren g i ∩ g.Descendants child).Nonempty))

/-- Invariant I1: every transaction is an ancestor and a descendant of
itself. -/
def HasI1 (g : DepGraph) : Prop :=
  ∀ i < g.TxCount, i ∈ g.Ancestors i ∧ i ∈ g.Descendants i

/-- Invariant I2: the ancestor and descendant relations are exact
inverses of each other. -/
def HasI2 (g : DepGraph) : Prop :=
  ∀ i j : ℕ, j ∈ g.Ancestors i ↔ i ∈ g.Descendants j

/-- Invariant I3: both relations are transitively closed. -/
def HasI3 (g : DepGraph) : Prop :=
  (∀ i j k : ℕ, j ∈ g.Ancestors i → k ∈ g.Ancestors j → k ∈ g.Ancestors i) ∧
  (∀ i j k : ℕ, j ∈ g.Descendants i → k ∈ g.Descendants j → k ∈ g.Descendants i)

/-- Invariant I4 (acyclicity): `Ancestors(i) ∩ Descendants(i) = {i}`. -/
def HasI4 (g : DepGraph) : Prop :=
  ∀ i < g.TxCount, g.Ancestors i ∩ g.Descendants i = {i}

end DepGraph

/-- Guarded direct-parent edge relation of a cluster: `a` has direct
parent `b` and `a` indexes an actual cluster entry. -/
def cluEdge (cluster : Cluster) (a b : ℕ) : Prop :=
  a < cluster.length ∧ b ∈ dparents cluster a

/-- Unguarded direct-parent edge relation of a cluster. -/
def dpEdge (cluster : Cluster) (a b : ℕ) : Prop :=
  b ∈ dparents cluster a

/-- Reachability with all intermediate nodes below a bound `k`, the
intermediate notion of the ancestor-propagation sweep: after the sweep
has processed outer indices `0..k-1`, the recorded ancestors of `j` are
exactly the nodes reachable from `j` along edges through intermediate
nodes `< k`. -/
inductive FWReach (E : ℕ → ℕ → Prop) (k : ℕ) : ℕ → ℕ → Prop where
  | refl (j : ℕ) : FWReach E k j j
  | single (j b : ℕ) : E j b → FWReach E k j b
  | comp (j m b : ℕ) : m < k → FWReach E k j m → FWReach E k m b → FWReach E k j b

/-- Linear chain cluster of the spec's concrete scenarios: 0 is a parent
of 1, 1 is a parent of 2, feerates (1,100), (2,100), (3,100). -/
def chainCluster : Cluster :=
  [(⟨1, 100⟩, ∅), (⟨2, 100⟩, {0}), (⟨3, 100⟩, {1})]

/-- Dependency graph built from the linear chain. -/
def chainG : DepGraph := DepGraph.ofCluster chainCluster

/-- Diamond cluster of the spec's concrete scenarios: 0 is a parent of 1
and 2, and both 1 and 2 are parents of 3. -/
def diamondCluster : Cluster :=
  [(⟨1, 100⟩, ∅), (⟨2, 100⟩, {0}), (⟨3, 100⟩, {0}), (⟨4, 100⟩, {1, 2})]

/-- Dependency graph built from the diamond. -/
def diamondG : DepGraph := DepGraph.ofCluster diamondCluster

/-- Cluster listing the linear chain 2 → 1 → 0 against topological
order: the direct parent of 0 is 1 and the direct parent of 1 is 2. -/
def revChainCluster : Cluster :=
  [(⟨1, 100⟩, {1}), (⟨2, 100⟩, {2}), (⟨3, 100⟩, ∅)]

/-- Graph with three transactions and dependencies 0 → 1 and 2 → 1
(both 0 and 2 are direct parents of 1). -/
def vGraph : DepGraph :=
  DepGraph.ofCluster [(⟨1, 100⟩, ∅), (⟨2, 100⟩, {0, 2}), (⟨3, 100⟩, ∅)]

theorem getD_mapIdx (f : ℕ → Entry → Entry) (l : List Entry) {i : ℕ}
    (h : i < l.length) (d : Entry) :
    (List.mapIdx f l).getD i d = f i (l.getD i d) := by
  rw [List.getD_eq_getElem _ _ (by simpa using h), List.getD_eq_getElem _ _ h,
    List.getElem_mapIdx]

theorem getD_mapIdx_of_le (f : ℕ → Entry → Entry) (l : List Entry) {i : ℕ}
    (h : l.length ≤ i) (d : Entry) :
    (List.mapIdx f l).getD i d = d := by
  rw [List.getD_eq_default]
  simpa using h

namespace DepGraph

theorem Ancestors_eq_empty_of_le {g : DepGraph} {i : ℕ} (h : g.TxCount ≤ i) :
    g.Ancestors i = ∅ := by
  rw [Ancestors, List.getD_eq_default _ _ h]
  rfl

theorem Descendants_eq_empty_of_le {g : DepGraph} {i : ℕ} (h : g.TxCount ≤ i) :
    g.Descendants i = ∅ := by
  rw [Descendants, List.getD_eq_default _ _ h]
  rfl

theorem lt_of_mem_Ancestors {g : DepGraph} {i j : ℕ} (h : j ∈ g.Ancestors i) :
    i < g.TxCount := by
  by_contra hlt
  rw [Ancestors_eq_empty_of_le (Nat.le_of_not_lt hlt)] at h
  exact absurd h (Finset.not_mem_empty j)

theorem lt_of_mem_Descendants {g : DepGraph} {i j : ℕ} (h : j ∈ g.Descendants i) :
    i < g.TxCount := by
  by_contra hlt
  rw [Descendants_eq_empty_of_le (Nat.le_of_not_lt hlt)] at h
  exact absurd h (Finset.not_mem_empty j)

theorem TxCount_AddDependency (g : DepGraph) (p c : ℕ) :
    (g.AddDependency p c).TxCount = g.TxCount := by
  simp [AddDependency, TxCount]

theorem FeeRate_AddDependency (g : DepGraph) (p c i : ℕ) :
    (g.AddDependency p c).FeeRate i = g.FeeRate i := by
  rcases Nat.lt_or_ge i g.TxCount with h | h
  · rw [FeeRate, FeeRate, AddDependency]
    rw [getD_mapIdx _ _ (by simpa [TxCount] using h),
      getD_mapIdx _ _ (by simpa [TxCount] using h)]
    split <;> split <;> rfl
  · rw [FeeRate, FeeRate, AddDependency]
    rw [getD_mapIdx_of_le _ _ (by simpa [TxCount] using h),
      List.getD_eq_default _ _ (by simpa [TxCount] using h)]

theorem Ancestors_AddDependency (g : DepGraph) (p c : ℕ) {d : ℕ}
    (hd : d < g.TxCount) :
    (g.AddDependency p c).Ancestors d =
      if d ∈ g.Descendants c then g.Ancestors d ∪ g.Ancestors p
      else g.Ancestors d := by
  rw [Ancestors, AddDependency]
  rw [getD_mapIdx _ _ (by simpa [TxCount] using hd),
    getD_mapIdx _ _ (by simpa [TxCount] using hd)]
  rw [Ancestors]
  split <;> split <;> rfl

theorem Descendants_AddDependency (g : DepGraph) (p c : ℕ) {a : ℕ}
    (ha : a < g.TxCount) :
    (g.AddDependency p c).Descendants a =
      if a ∈ g.Ancestors p then g.Descendants a ∪ g.Descendants c
      else g.Descendants a := by
  rw [Descendants, AddDependency]
  rw [getD_mapIdx _ _ (by simpa [TxCount] using ha),
    getD_mapIdx _ _ (by simpa [TxCount] using ha)]
  rw [Descendants]
  split <;> split <;> rfl

end DepGraph

theorem FWReach.mono_k {E : ℕ → ℕ → Prop} {k k' j b : ℕ} (hk : k ≤ k')
    (h : FWReach E k j b) : FWReach E k' j b := by
  induction h with
  | refl => exact .refl _
  | single _ _ he => exact .single _ _ he
  | comp _ m _ hm _ _ ih1 ih2 => exact .comp _ m _ (lt_of_lt_of_le hm hk) ih1 ih2

theorem fwReach_succ_iff {E : ℕ → ℕ → Prop} {k j b : ℕ} :
    FWReach E (k + 1) j b ↔
      FWReach E k j b ∨ (FWReach E k j k ∧ FWReach E k k b) := by
  constructor
  · intro h
    induction h with
    | refl => exact Or.inl (.refl _)
    | single _ _ he => exact Or.inl (.single _ _ he)
    | comp j' m b' hm h1 h2 ih1 ih2 =>
      rcases Nat.lt_succ_iff_lt_or_eq.mp hm with hmk | rfl
      · rcases ih1 with h1' | ⟨h1a, h1b⟩ <;> rcases ih2 with h2' | ⟨h2a, h2b⟩
        · exact Or.inl (.comp _ m _ hmk h1' h2')
        · exact Or.inr ⟨.comp _ m _ hmk h1' h2a, h2b⟩
        · exact Or.inr ⟨h1a, .comp _ m _ hmk h1b h2'⟩
        · exact Or.inr ⟨h1a, h2b⟩
      · rcases ih1 with h1' | ⟨h1a, _⟩ <;> rcases ih2 with h2' | ⟨_, h2b⟩
        · exact Or.inr ⟨h1', h2'⟩
        · exact Or.inr ⟨h1', h2b⟩
        · exact Or.inr ⟨h1a, h2'⟩
        · exact Or.inr ⟨h1a, h2b⟩
  · intro h
    rcases h with h | ⟨h1, h2⟩
    · exact h.mono_k (Nat.le_succ k)
    · exact .comp _ k _ (Nat.lt_succ_self k)
        (h1.mono_k (Nat.le_succ k)) (h2.mono_k (Nat.le_succ k))

theorem FWReach.to_reflTransGen {E : ℕ → ℕ → Prop} {k j b : ℕ}
    (h : FWReach E k j b) : Relation.ReflTransGen E j b := by
  induction h with
  | refl => exact .refl
  | single _ _ he => exact .single he
  | comp _ _ _ _ _ _ ih1 ih2 => exact ih1.trans ih2

theorem fwReach_of_reflTransGen {E : ℕ → ℕ → Prop} {n j b : ℕ}
    (hE : ∀ a b, E a b → a < n) (h : Relation.ReflTransGen E j b) :
    FWReach E n j b := by
  induction h with
  | refl => exact .refl _
  | tail _ he ih => exact .comp _ _ _ (hE _ _ he) ih (.single _ _ he)

namespace DepGraph

theorem length_ancSweepStep (es : List Entry) (i : ℕ) :
    (ancSweepStep es i).length = es.length := by
  simp [ancSweepStep]

theorem length_descFillStep (es : List Entry) (i : ℕ) :
    (descFillStep es i).length = es.length := by
  simp [descFillStep]

theorem length_initEntries (cluster : Cluster) :
    (initEntries cluster).length = cluster.length := by
  simp [initEntries]

theorem initEntries_getD (cluster : Cluster) {j : ℕ} (hj : j < cluster.length) :
    (initEntries cluster).getD j default =
      ⟨(List.getD cluster j default).1, insert j (dparents cluster j), ∅⟩ := by
  have hj2 : j < (initEntries cluster).length := by
    simpa [length_initEntries] using hj
  rw [List.getD_eq_getElem _ _ hj2]
  simp only [initEntries, List.getElem_mapIdx]
  rw [dparents, List.getD_eq_getElem _ _ hj]

theorem ancestors_ancSweepStep (es : List Entry) (i : ℕ) {j : ℕ}
    (hj : j < es.length) :
    ((ancSweepStep es i).getD j default).ancestors =
      if i ∈ (es.getD j default).ancestors
      then (es.getD j default).ancestors ∪ (es.getD i default).ancestors
      else (es.getD j default).ancestors := by
  rw [ancSweepStep, getD_mapIdx _ _ hj]
  split <;> rfl

theorem descendants_ancSweepStep (es : List Entry) (i j : ℕ) :
    ((ancSweepStep es i).getD j default).descendants =
      (es.getD j default).descendants := by
  rcases Nat.lt_or_ge j es.length with h | h
  · rw [ancSweepStep, getD_mapIdx _ _ h]
    split <;> rfl
  · rw [ancSweepStep, getD_mapIdx_of_le _ _ h, List.getD_eq_default _ _ h]

theorem feerate_ancSweepStep (es : List Entry) (i j : ℕ) :
    ((ancSweepStep es i).getD j default).feerate =
      (es.getD j default).feerate := by
  rcases Nat.lt_or_ge j es.length with h | h
  · rw [ancSweepStep, getD_mapIdx _ _ h]
    split <;> rfl
  · rw [ancSweepStep, getD_mapIdx_of_le _ _ h, List.getD_eq_default _ _ h]

theorem ancestors_descFillStep (es : List Entry) (i j : ℕ) :
    ((descFillStep es i).getD j default).ancestors =
      (es.getD j default).ancestors := by
  rcases Nat.lt_or_ge j es.length with h | h
  · rw [descFillStep, getD_mapIdx _ _ h]
    split <;> rfl
  · rw [descFillStep, getD_mapIdx_of_le _ _ h, List.getD_eq_default _ _ h]

theorem feerate_descFillStep (es : List Entry) (i j : ℕ) :
    ((descFillStep es i).getD j default).feerate =
      (es.getD j default).feerate := by
  rcases Nat.lt_or_ge j es.length with h | h
  · rw [descFillStep, getD_mapIdx _ _ h]
    split <;> rfl
  · rw [descFillStep, getD_mapIdx_of_le _ _ h, List.getD_eq_default _ _ h]

theorem descendants_descFillStep (es : List Entry) (i : ℕ) {j : ℕ}
    (hj : j < es.length) :
    ((descFillStep es i).getD j default).descendants =
      if j ∈ (es.getD i default).ancestors
      then insert i (es.getD j default).descendants
      else (es.getD j default).descendants := by
  rw [descFillStep, getD_mapIdx _ _ hj]
  split <;> rfl

theorem length_foldl_ancSweepStep (L : List ℕ) (es : List Entry) :
    (L.foldl ancSweepStep es).length = es.length := by
  induction L generalizing es with
  | nil => rfl
  | cons x L ih => rw [List.foldl_cons, ih, length_ancSweepStep]

theorem length_foldl_descFillStep (L : List ℕ) (es : List Entry) :
    (L.foldl descFillStep es).length = es.length := by
  induction L generalizing es with
  | nil => rfl
  | cons x L ih => rw [List.foldl_cons, ih, length_descFillStep]

theorem descendants_foldl_ancSweepStep (L : List ℕ) (es : List Entry) (j : ℕ) :
    ((L.foldl ancSweepStep es).getD j default).descendants =
      (es.getD j default).descendants := by
  induction L generalizing es with
  | nil => rfl
  | cons x L ih => rw [List.foldl_cons, ih, descendants_ancSweepStep]

theorem feerate_foldl_ancSweepStep (L : List ℕ) (es : List Entry) (j : ℕ) :
    ((L.foldl ancSweepStep es).getD j default).feerate =
      (es.getD j default).feerate := by
  induction L generalizing es with
  | nil => rfl
  | cons x L ih => rw [List.foldl_cons, ih, feerate_ancSweepStep]

theorem ancestors_foldl_descFillStep (L : List ℕ) (es : List Entry) (j : ℕ) :
    ((L.foldl descFillStep es).getD j default).ancestors =
      (es.getD j default).ancestors := by
  induction L generalizing es with
  | nil => rfl
  | cons x L ih => rw [List.foldl_cons, ih, ancestors_descFillStep]

theorem feerate_foldl_descFillStep (L : List ℕ) (es : List Entry) (j : ℕ) :
    ((L.foldl descFillStep es).getD j default).feerate =
      (es.getD j default).feerate := by
  induction L generalizing es with
  | nil => rfl
  | cons x L ih => rw [List.foldl_cons, ih, feerate_descFillStep]

theorem ancSweep_range_inv (cluster : Cluster) (k : ℕ) (hk : k ≤ cluster.length) :
    ∀ j < cluster.length, ∀ b : ℕ,
      b ∈ (((List.range k).foldl ancSweepStep (initEntries cluster)).getD
            j default).ancestors ↔
        FWReach (cluEdge cluster) k j b := by
  induction k with
  | zero =>
    intro j hj b
    simp only [List.range_zero, List.foldl_nil]
    rw [initEntries_getD cluster hj]
    constructor
    · intro hb
      rcases Finset.mem_insert.mp hb with rfl | hb
      · exact .refl _
      · exact .single _ _ ⟨hj, hb⟩
    · intro hb
      cases hb with
      | refl => exact Finset.mem_insert_self _ _
      | single _ _ he => exact Finset.mem_insert_of_mem he.2
      | comp _ m _ hm _ _ => exact absurd hm (Nat.not_lt_zero m)
  | succ k ih =>
    intro j hj b
    have hk' : k ≤ cluster.length := Nat.le_of_succ_le hk
    have hkN : k < cluster.length := hk
    have hlen : ((List.range k).foldl ancSweepStep (initEntries cluster)).length
        = cluster.length := by
      rw [length_foldl_ancSweepStep, length_initEntries]
    rw [List.range_succ, List.foldl_append, List.foldl_cons, List.foldl_nil]
    rw [ancestors_ancSweepStep _ _ (show j < _ by rw [hlen]; exact hj)]
    rw [fwReach_succ_iff]
    split
    case isTrue h =>
      rw [Finset.mem_union]
      rw [ih hk' j hj b, ih hk' k hkN b]
      have hjk := (ih hk' j hj k).mp h
      constructor
      · rintro (hb | hb)
        · exact Or.inl hb
        · exact Or.inr ⟨hjk, hb⟩
      · rintro (hb | ⟨_, hb⟩)
        · exact Or.inl hb
        · exact Or.inr hb
    case isFalse h =>
      rw [ih hk' j hj b]
      constructor
      · exact Or.inl
      · rintro (hb | ⟨hjk, hb⟩)
        · exact hb
        · exact absurd ((ih hk' j hj k).mpr hjk) h

theorem descFill_range_inv (es : List Entry) (k : ℕ) (hk : k ≤ es.length) :
    ∀ j < es.length,
      (((List.range k).foldl descFillStep es).getD j default).descendants =
        (es.getD j default).descendants ∪
          (Finset.range k).filter (fun i => j ∈ (es.getD i default).ancestors) := by
  induction k with
  | zero =>
    intro j hj
    simp
  | succ k ih =>
    intro j hj
    have hk' : k ≤ es.length := Nat.le_of_succ_le hk
    have hlen : ((List.range k).foldl descFillStep es).length = es.length :=
      length_foldl_descFillStep _ _
    rw [List.range_succ, List.foldl_append, List.foldl_cons, List.foldl_nil]
    rw [descendants_descFillStep _ _ (show j < _ by rw [hlen]; exact hj)]
    rw [ancestors_foldl_descFillStep]
    rw [ih hk' j hj]
    rw [Finset.range_succ, Finset.filter_insert]
    split
    case isTrue h => rw [Finset.union_insert]
    case isFalse h => rfl

theorem TxCount_ofCluster (cluster : Cluster) :
    (ofCluster cluster).TxCount = cluster.length := by
  show (descFill (ancSweep (initEntries cluster))).length = _
  rw [descFill, length_foldl_descFillStep, ancSweep, length_foldl_ancSweepStep,
    length_initEntries]

theorem Ancestors_ofCluster_eq (cluster : Cluster) (i : ℕ) :
    (ofCluster cluster).Ancestors i =
      ((ancSweep (initEntries cluster)).getD i default).ancestors := by
  show ((descFill (ancSweep (initEntries cluster))).getD i default).ancestors = _
  rw [descFill, ancestors_foldl_descFillStep]

theorem mem_Ancestors_ofCluster (cluster : Cluster) {j : ℕ}
    (hj : j < cluster.length) (b : ℕ) :
    b ∈ (ofCluster cluster).Ancestors j ↔
      Relation.ReflTransGen (cluEdge cluster) j b := by
  rw [Ancestors_ofCluster_eq]
  have hlen : (initEntries cluster).length = cluster.length := length_initEntries _
  rw [ancSweep, hlen]
  rw [ancSweep_range_inv cluster cluster.length le_rfl j hj b]
  constructor
  · exact FWReach.to_reflTransGen
  · exact fwReach_of_reflTransGen (fun a b hab => hab.1)

theorem mem_Descendants_ofCluster (cluster : Cluster) {j : ℕ}
    (hj : j < cluster.length) (i : ℕ) :
    i ∈ (ofCluster cluster).Descendants j ↔
      i < cluster.length ∧ j ∈ (ofCluster cluster).Ancestors i := by
  have hlen2 : (ancSweep (initEntries cluster)).length = cluster.length := by
    rw [ancSweep, length_foldl_ancSweepStep, length_initEntries]
  have hdesc : (ofCluster cluster).Descendants j =
      (((List.range (ancSweep (initEntries cluster)).length).foldl descFillStep
        (ancSweep (initEntries cluster))).getD j default).descendants := by
    show ((descFill (ancSweep (initEntries cluster))).getD j default).descendants = _
    rw [descFill]
  rw [hdesc, descFill_range_inv _ _ le_rfl j (by rw [hlen2]; exact hj)]
  have hdesc0 : ((ancSweep (initEntries cluster)).getD j default).descendants = ∅ := by
    rw [ancSweep, descendants_foldl_ancSweepStep, initEntries_getD cluster hj]
  rw [hdesc0, Finset.empty_union, hlen2]
  rw [Finset.mem_filter, Finset.mem_range]
  constructor
  · rintro ⟨hi, hanc⟩
    refine ⟨hi, ?_⟩
    rw [Ancestors_ofCluster_eq]
    exact hanc
  · rintro ⟨hi, hanc⟩
    refine ⟨hi, ?_⟩
    rw [Ancestors_ofCluster_eq] at hanc
    exact hanc

end DepGraph

theorem dparents_eq_empty_of_le {cluster : Cluster} {i : ℕ}
    (h : cluster.length ≤ i) : dparents cluster i = ∅ := by
  rw [dparents, List.getD_eq_default _ _ h]
  rfl

theorem reach_le_of_topo {cluster : Cluster}
    (htopo : ∀ i < cluster.length, ∀ p ∈ dparents cluster i, p < i)
    {a b : ℕ} (h : Relation.ReflTransGen (cluEdge cluster) a b) : b ≤ a := by
  induction h with
  | refl => exact le_rfl
  | tail _ he ih => exact le_trans (Nat.le_of_lt (htopo _ he.1 _ he.2)) ih

theorem rtg_cluEdge_of_dpEdge {cluster : Cluster}
    (htopo : ∀ i < cluster.length, ∀ p ∈ dparents cluster i, p < i)
    {a b : ℕ} (h : Relation.ReflTransGen (dpEdge cluster) a b) :
    a < cluster.length → Relation.ReflTransGen (cluEdge cluster) a b := by
  induction h using Relation.ReflTransGen.head_induction_on with
  | refl => exact fun _ => .refl
  | head h' _ ih =>
    intro ha
    have hc := htopo _ ha _ h'
    exact .head ⟨ha, h'⟩ (ih (hc.trans ha))

theorem rtg_dpEdge_iff_cluEdge {cluster : Cluster}
    (htopo : ∀ i < cluster.length, ∀ p ∈ dparents cluster i, p < i)
    {a b : ℕ} (ha : a < cluster.length) :
    Relation.ReflTransGen (dpEdge cluster) a b ↔
      Relation.ReflTransGen (cluEdge cluster) a b := by
  constructor
  · intro h
    exact rtg_cluEdge_of_dpEdge htopo h ha
  · exact Relation.ReflTransGen.mono (fun a b hab => hab.2)

namespace DepGraph

theorem ofCluster_anc_le {cluster : Cluster}
    (htopo : ∀ i < cluster.length, ∀ p ∈ dparents cluster i, p < i)
    {i j : ℕ} (h : j ∈ (ofCluster cluster).Ancestors i) : j ≤ i := by
  have hi : i < (ofCluster cluster).TxCount := lt_of_mem_Ancestors h
  rw [TxCount_ofCluster] at hi
  exact reach_le_of_topo htopo ((mem_Ancestors_ofCluster cluster hi j).mp h)

theorem ofCluster_hasI1 (cluster : Cluster) : (ofCluster cluster).HasI1 := by
  intro i hi
  rw [TxCount_ofCluster] at hi
  have hanc : i ∈ (ofCluster cluster).Ancestors i :=
    (mem_Ancestors_ofCluster cluster hi i).mpr .refl
  exact ⟨hanc, (mem_Descendants_ofCluster cluster hi i).mpr ⟨hi, hanc⟩⟩

theorem ofCluster_hasI2 {cluster : Cluster}
    (htopo : ∀ i < cluster.length, ∀ p ∈ dparents cluster i, p < i) :
    (ofCluster cluster).HasI2 := by
  intro i j
  constructor
  · intro h
    have hiN : i < cluster.length := by
      have := lt_of_mem_Ancestors h
      rwa [TxCount_ofCluster] at this
    have hjN : j < cluster.length := lt_of_le_of_lt (ofCluster_anc_le htopo h) hiN
    exact (mem_Descendants_ofCluster cluster hjN i).mpr ⟨hiN, h⟩
  · intro h
    have hjN : j < cluster.length := by
      have := lt_of_mem_Descendants h
      rwa [TxCount_ofCluster] at this
    exact ((mem_Descendants_ofCluster cluster hjN i).mp h).2

theorem ofCluster_hasI3 (cluster : Cluster) : (ofCluster cluster).HasI3 := by
  constructor
  · intro i j k hji hkj
    have hiN : i < cluster.length := by
      have := lt_of_mem_Ancestors hji
      rwa [TxCount_ofCluster] at this
    have hjN : j < cluster.length := by
      have := lt_of_mem_Ancestors hkj
      rwa [TxCount_ofCluster] at this
    rw [mem_Ancestors_ofCluster cluster hiN] at hji ⊢
    rw [mem_Ancestors_ofCluster cluster hjN] at hkj
    exact hji.trans hkj
  · intro i j k hji hkj
    have hiN : i < cluster.length := by
      have := lt_of_mem_Descendants hji
      rwa [TxCount_ofCluster] at this
    have hjN : j < cluster.length := by
      have := lt_of_mem_Descendants hkj
      rwa [TxCount_ofCluster] at this
    rw [mem_Descendants_ofCluster cluster hiN] at hji ⊢
    rw [mem_Descendants_ofCluster cluster hjN] at hkj
    obtain ⟨hjlt, hij⟩ := hji
    obtain ⟨hklt, hjk⟩ := hkj
    refine ⟨hklt, ?_⟩
    rw [mem_Ancestors_ofCluster cluster hjlt] at hij
    rw [mem_Ancestors_ofCluster cluster hklt] at hjk ⊢
    exact hjk.trans hij

theorem ofCluster_hasI4 {cluster : Cluster}
    (htopo : ∀ i < cluster.length, ∀ p ∈ dparents cluster i, p < i) :
    (ofCluster cluster).HasI4 := by
  intro i hi
  ext x
  rw [Finset.mem_inter, Finset.mem_singleton]
  constructor
  · rintro ⟨hxa, hxd⟩
    rw [TxCount_ofCluster] at hi
    have hxi : x ≤ i := ofCluster_anc_le htopo hxa
    have hx := (mem_Descendants_ofCluster cluster hi x).mp hxd
    have hixle : i ≤ x := ofCluster_anc_le htopo hx.2
    omega
  · rintro rfl
    exact ⟨(ofCluster_hasI1 cluster x hi).1, (ofCluster_hasI1 cluster x hi).2⟩

theorem mem_Ancestors_AddDependency {g : DepGraph} (h2 : g.HasI2) (p c : ℕ)
    (d x : ℕ) :
    x ∈ (g.AddDependency p c).Ancestors d ↔
      x ∈ g.Ancestors d ∨ (d ∈ g.Descendants c ∧ x ∈ g.Ancestors p) := by
  rcases Nat.lt_or_ge d g.TxCount with hd | hd
  · rw [Ancestors_AddDependency g p c hd]
    split
    case isTrue h => simp [Finset.mem_union, h]
    case isFalse h => simp [h]
  · have hempty : g.Ancestors d = ∅ := Ancestors_eq_empty_of_le hd
    have hempty2 : (g.AddDependency p c).Ancestors d = ∅ := by
      refine Ancestors_eq_empty_of_le ?_
      rw [TxCount_AddDependency]
      exact hd
    rw [hempty, hempty2]
    simp only [Finset.not_mem_empty, false_iff, false_or]
    rintro ⟨hdc, _⟩
    have : c ∈ g.Ancestors d := (h2 d c).mpr hdc
    rw [hempty] at this
    exact absurd this (Finset.not_mem_empty c)

theorem mem_Descendants_AddDependency {g : DepGraph} (h2 : g.HasI2) (p c : ℕ)
    (a x : ℕ) :
    x ∈ (g.AddDependency p c).Descendants a ↔
      x ∈ g.Descendants a ∨ (a ∈ g.Ancestors p ∧ x ∈ g.Descendants c) := by
  rcases Nat.lt_or_ge a g.TxCount with ha | ha
  · rw [Descendants_AddDependency g p c ha]
    split
    case isTrue h => simp [Finset.mem_union, h]
    case isFalse h => simp [h]
  · have hempty : g.Descendants a = ∅ := Descendants_eq_empty_of_le ha
    have hempty2 : (g.AddDependency p c).Descendants a = ∅ := by
      refine Descendants_eq_empty_of_le ?_
      rw [TxCount_AddDependency]
      exact ha
    rw [hempty, hempty2]
    simp only [Finset.not_mem_empty, false_iff, false_or]
    rintro ⟨hap, _⟩
    have : p ∈ g.Descendants a := (h2 p a).mp hap
    rw [hempty] at this
    exact absurd this (Finset.not_mem_empty p)

theorem hasI1_AddDependency (g : DepGraph) (p c : ℕ) (h1 : g.HasI1) :
    (g.AddDependency p c).HasI1 := by
  intro i hi
  rw [TxCount_AddDependency] at hi
  constructor
  · rw [Ancestors_AddDependency g p c hi]
    split
    · exact Finset.mem_union_left _ (h1 i hi).1
    · exact (h1 i hi).1
  · rw [Descendants_AddDependency g p c hi]
    split
    · exact Finset.mem_union_left _ (h1 i hi).2
    · exact (h1 i hi).2

theorem hasI2_AddDependency (g : DepGraph) (p c : ℕ) (h2 : g.HasI2) :
    (g.AddDependency p c).HasI2 := by
  intro i j
  rw [mem_Ancestors_AddDependency h2 p c i j,
    mem_Descendants_AddDependency h2 p c j i]
  constructor
  · rintro (h | ⟨hic, hjp⟩)
    · exact Or.inl ((h2 i j).mp h)
    · exact Or.inr ⟨hjp, hic⟩
  · rintro (h | ⟨hjp, hic⟩)
    · exact Or.inl ((h2 i j).mpr h)
    · exact Or.inr ⟨hic, hjp⟩

theorem hasI3_AddDependency (g : DepGraph) (p c : ℕ) (h2 : g.HasI2)
    (h3 : g.HasI3) : (g.AddDependency p c).HasI3 := by
  obtain ⟨h3a, h3d⟩ := h3
  constructor
  · intro i j k hji hkj
    rw [mem_Ancestors_AddDependency h2 p c] at hji hkj ⊢
    rcases hji with hji | ⟨hic, hjp⟩
    · rcases hkj with hkj | ⟨hjc, hkp⟩
      · exact Or.inl (h3a i j k hji hkj)
      · refine Or.inr ⟨?_, hkp⟩
        have hcj : c ∈ g.Ancestors j := (h2 j c).mpr hjc
        have hci : c ∈ g.Ancestors i := h3a i j c hji hcj
        exact (h2 i c).mp hci
    · rcases hkj with hkj | ⟨_, hkp⟩
      · exact Or.inr ⟨hic, h3a p j k hjp hkj⟩
      · exact Or.inr ⟨hic, hkp⟩
  · intro i j k hji hkj
    rw [mem_Descendants_AddDependency h2 p c] at hji hkj ⊢
    rcases hji with hji | ⟨hip, hjc⟩
    · rcases hkj with hkj | ⟨hjp, hkc⟩
      · exact Or.inl (h3d i j k hji hkj)
      · refine Or.inr ⟨?_, hkc⟩
        have hij : i ∈ g.Ancestors j := (h2 j i).mpr hji
        exact h3a p j i hjp hij
    · rcases hkj with hkj | ⟨_, hkc⟩
      · exact Or.inr ⟨hip, h3d c j k hjc hkj⟩
      · exact Or.inr ⟨hip, hkc⟩

theorem AddDependency_new_edge (g : DepGraph) (p c : ℕ) (h1 : g.HasI1)
    (h2 : g.HasI2) (hp : p < g.TxCount) (hc : c < g.TxCount) :
    c ∈ (g.AddDependency p c).Descendants p ∧
      p ∈ (g.AddDependency p c).Ancestors c := by
  constructor
  · rw [mem_Descendants_AddDependency h2 p c]
    exact Or.inr ⟨(h1 p hp).1, (h1 c hc).2⟩
  · rw [mem_Ancestors_AddDependency h2 p c]
    exact Or.inr ⟨(h1 c hc).2, (h1 p hp).1⟩

theorem Ancestors_AddDependency_of_not_mem (g : DepGraph) (p c : ℕ) {d : ℕ}
    (hd : d ∉ g.Descendants c) :
    (g.AddDependency p c).Ancestors d = g.Ancestors d := by
  rcases Nat.lt_or_ge d g.TxCount with h | h
  · rw [Ancestors_AddDependency g p c h, if_neg hd]
  · rw [Ancestors_eq_empty_of_le (show (g.AddDependency p c).TxCount ≤ d by
      rw [TxCount_AddDependency]; exact h), Ancestors_eq_empty_of_le h]

theorem Descendants_AddDependency_of_not_mem (g : DepGraph) (p c : ℕ) {a : ℕ}
    (ha : a ∉ g.Ancestors p) :
    (g.AddDependency p c).Descendants a = g.Descendants a := by
  rcases Nat.lt_or_ge a g.TxCount with h | h
  · rw [Descendants_AddDependency g p c h, if_neg ha]
  · rw [Descendants_eq_empty_of_le (show (g.AddDependency p c).TxCount ≤ a by
      rw [TxCount_AddDependency]; exact h), Descendants_eq_empty_of_le h]

theorem eq_of_parts {g h : DepGraph} (hlen : g.TxCount = h.TxCount)
    (hfee : ∀ i, g.FeeRate i = h.FeeRate i)
    (hanc : ∀ i, g.Ancestors i = h.Ancestors i)
    (hdesc : ∀ i, g.Descendants i = h.Descendants i) : g = h := by
  cases g with
  | mk es1 =>
    cases h with
    | mk es2 =>
      congr 1
      refine List.ext_getElem hlen ?_
      intro n h1 h2
      have e1 : es1[n] = es1.getD n default := (List.getD_eq_getElem _ _ h1).symm
      have e2 : es2[n] = es2.getD n default := (List.getD_eq_getElem _ _ h2).symm
      rw [e1, e2]
      exact Entry.ext (hfee n) (hanc n) (hdesc n)

theorem Descendants_AddDependency_child (g : DepGraph) (p c : ℕ) :
    (g.AddDependency p c).Descendants c = g.Descendants c := by
  rcases Nat.lt_or_ge c g.TxCount with h | h
  · rw [Descendants_AddDependency g p c h]
    split
    · rw [Finset.union_self]
    · rfl
  · rw [Descendants_eq_empty_of_le (show (g.AddDependency p c).TxCount ≤ c by
      rw [TxCount_AddDependency]; exact h), Descendants_eq_empty_of_le h]

theorem Ancestors_AddDependency_parent (g : DepGraph) (p c : ℕ) :
    (g.AddDependency p c).Ancestors p = g.Ancestors p := by
  rcases Nat.lt_or_ge p g.TxCount with h | h
  · rw [Ancestors_AddDependency g p c h]
    split
    · rw [Finset.union_self]
    · rfl
  · rw [Ancestors_eq_empty_of_le (show (g.AddDependency p c).TxCount ≤ p by
      rw [TxCount_AddDependency]; exact h), Ancestors_eq_empty_of_le h]

theorem AddDependency_idem (g : DepGraph) (p c : ℕ) :
    (g.AddDependency p c).AddDependency p c = g.AddDependency p c := by
  apply eq_of_parts
  · rw [TxCount_AddDependency]
  · intro i
    rw [FeeRate_AddDependency]
  · intro d
    rcases Nat.lt_or_ge d g.TxCount with h | h
    · have h1 : d < (g.AddDependency p c).TxCount := by
        rw [TxCount_AddDependency]
        exact h
      rw [Ancestors_AddDependency _ p c h1, Descendants_AddDependency_child,
        Ancestors_AddDependency_parent, Ancestors_AddDependency _ p c h]
      by_cases hdc : d ∈ g.Descendants c
      · simp only [if_pos hdc, Finset.union_assoc, Finset.union_self]
      · simp only [if_neg hdc]
    · rw [Ancestors_eq_empty_of_le
        (show ((g.AddDependency p c).AddDependency p c).TxCount ≤ d by
          rw [TxCount_AddDependency, TxCount_AddDependency]; exact h),
        Ancestors_eq_empty_of_le (show (g.AddDependency p c).TxCount ≤ d by
          rw [TxCount_AddDependency]; exact h)]
  · intro a
    rcases Nat.lt_or_ge a g.TxCount with h | h
    · have h1 : a < (g.AddDependency p c).TxCount := by
        rw [TxCount_AddDependency]
        exact h
      rw [Descendants_AddDependency _ p c h1, Descendants_AddDependency_child,
        Ancestors_AddDependency_parent, Descendants_AddDependency _ p c h]
      by_cases hap : a ∈ g.Ancestors p
      · simp only [if_pos hap, Finset.union_assoc, Finset.union_self]
      · simp only [if_neg hap]
    · rw [Descendants_eq_empty_of_le
        (show ((g.AddDependency p c).AddDependency p c).TxCount ≤ a by
          rw [TxCount_AddDependency, TxCount_AddDependency]; exact h),
        Descendants_eq_empty_of_le (show (g.AddDependency p c).TxCount ≤ a by
          rw [TxCount_AddDependency]; exact h)]

theorem AddDependency_no_op (g : DepGraph) (p c : ℕ) (h2 : g.HasI2)
    (h3 : g.HasI3) (hcd : c ∈ g.Descendants p) : g.AddDependency p c = g := by
  apply eq_of_parts
  · exact TxCount_AddDependency g p c
  · intro i
    exact FeeRate_AddDependency g p c i
  · intro d
    rcases Nat.lt_or_ge d g.TxCount with h | h
    · rw [Ancestors_AddDependency g p c h]
      split
      case isTrue hdc =>
        refine Finset.union_eq_left.mpr ?_
        intro x hx
        have hcand : c ∈ g.Ancestors d := (h2 d c).mpr hdc
        have hpanc : p ∈ g.Ancestors c := (h2 c p).mpr hcd
        have hpand : p ∈ g.Ancestors d := h3.1 d c p hcand hpanc
        exact h3.1 d p x hpand hx
      case isFalse hdc => rfl
    · rw [Ancestors_eq_empty_of_le (show (g.AddDependency p c).TxCount ≤ d by
        rw [TxCount_AddDependency]; exact h), Ancestors_eq_empty_of_le h]
  · intro a
    rcases Nat.lt_or_ge a g.TxCount with h | h
    · rw [Descendants_AddDependency g p c h]
      split
      case isTrue hap =>
        refine Finset.union_eq_left.mpr ?_
        intro x hx
        have hpdesa : p ∈ g.Descendants a := (h2 p a).mp hap
        have hcdesa : c ∈ g.Descendants a := h3.2 a p c hpdesa hcd
        exact h3.2 a c x hcdesa hx
      case isFalse hap => rfl
    · rw [Descendants_eq_empty_of_le (show (g.AddDependency p c).TxCount ≤ a by
        rw [TxCount_AddDependency]; exact h), Descendants_eq_empty_of_le h]

theorem reduce_fold_subset_cover (g : DepGraph)
    (h3a : ∀ i j k : ℕ, j ∈ g.Ancestors i → k ∈ g.Ancestors j → k ∈ g.Ancestors i)
    (ret0 : Finset ℕ) (L : List ℕ) :
    ∀ ret : Finset ℕ, ret ⊆ ret0 →
      ret0 ⊆ ret ∪ ret.biUnion g.Ancestors →
      (L.foldl (fun ret a => if a ∈ ret then insert a (ret \ g.Ancestors a)
          else ret) ret) ⊆ ret0 ∧
      ret0 ⊆ (L.foldl (fun ret a => if a ∈ ret then insert a (ret \ g.Ancestors a)
          else ret) ret) ∪
        (L.foldl (fun ret a => if a ∈ ret then insert a (ret \ g.Ancestors a)
          else ret) ret).biUnion g.Ancestors := by
  induction L with
  | nil =>
    intro ret hsub hcov
    exact ⟨hsub, hcov⟩
  | cons a L ih =>
    intro ret hsub hcov
    rw [List.foldl_cons]
    by_cases ha : a ∈ ret
    · rw [if_pos ha]
      apply ih
      · intro x hx
        rcases Finset.mem_insert.mp hx with rfl | hx
        · exact hsub ha
        · exact hsub (Finset.mem_sdiff.mp hx).1
      · intro x hx
        rcases Finset.mem_union.mp (hcov hx) with hxr | hxbu
        · by_cases hxa : x ∈ insert a (ret \ g.Ancestors a)
          · exact Finset.mem_union_left _ hxa
          · have hxanc : x ∈ g.Ancestors a := by
              by_contra hno
              exact hxa (Finset.mem_insert_of_mem (Finset.mem_sdiff.mpr ⟨hxr, hno⟩))
            exact Finset.mem_union_right _ (Finset.mem_biUnion.mpr
              ⟨a, Finset.mem_insert_self _ _, hxanc⟩)
        · obtain ⟨y, hy, hxy⟩ := Finset.mem_biUnion.mp hxbu
          by_cases hya : y ∈ insert a (ret \ g.Ancestors a)
          · exact Finset.mem_union_right _ (Finset.mem_biUnion.mpr ⟨y, hya, hxy⟩)
          · have hyanc : y ∈ g.Ancestors a := by
              by_contra hno
              exact hya (Finset.mem_insert_of_mem (Finset.mem_sdiff.mpr ⟨hy, hno⟩))
            exact Finset.mem_union_right _ (Finset.mem_biUnion.mpr
              ⟨a, Finset.mem_insert_self _ _, h3a a y x hyanc hxy⟩)
    · rw [if_neg ha]
      exact ih ret hsub hcov

theorem GetReducedParents_contract (g : DepGraph) (i : ℕ)
    (h2 : g.HasI2) (h3 : g.HasI3) (h4 : g.HasI4) (hi : i < g.TxCount) :
    GetReducedParents g i ⊆ (g.Ancestors i).erase i ∧
    (g.Ancestors i).erase i =
      GetReducedParents g i ∪
        (GetReducedParents g i).biUnion (fun a => (g.Ancestors a).erase a) := by
  have hPdef : GetReducedParents g i =
      ((ascMembers ((g.Ancestors i).erase i)).foldl
        (fun ret a => if a ∈ ret then insert a (ret \ g.Ancestors a) else ret)
        ((g.Ancestors i).erase i)) := rfl
  have hfold := reduce_fold_subset_cover g h3.1 ((g.Ancestors i).erase i)
    (ascMembers ((g.Ancestors i).erase i)) ((g.Ancestors i).erase i)
    (Finset.Subset.refl _) (fun x hx => Finset.mem_union_left _ hx)
  rw [← hPdef] at hfold
  refine ⟨hfold.1, ?_⟩
  ext x
  constructor
  · intro hx
    rcases Finset.mem_union.mp (hfold.2 hx) with hxP | hxbu
    · exact Finset.mem_union_left _ hxP
    · obtain ⟨a, haP, hxa⟩ := Finset.mem_biUnion.mp hxbu
      by_cases hxeq : x = a
      · exact Finset.mem_union_left _ (hxeq ▸ haP)
      · exact Finset.mem_union_right _ (Finset.mem_biUnion.mpr
          ⟨a, haP, Finset.mem_erase.mpr ⟨hxeq, hxa⟩⟩)
  · intro hx
    rcases Finset.mem_union.mp hx with hxP | hxbu
    · exact hfold.1 hxP
    · obtain ⟨a, haP, hxa⟩ := Finset.mem_biUnion.mp hxbu
      obtain ⟨hxna, hxanc⟩ := Finset.mem_erase.mp hxa
      have haret := hfold.1 haP
      obtain ⟨hani, haanc⟩ := Finset.mem_erase.mp haret
      have hxi : x ∈ g.Ancestors i := h3.1 i a x haanc hxanc
      refine Finset.mem_erase.mpr ⟨?_, hxi⟩
      rintro rfl
      have hadesc : a ∈ g.Descendants x := (h2 a x).mp hxanc
      have hax : a ∈ g.Ancestors x ∩ g.Descendants x :=
        Finset.mem_inter.mpr ⟨haanc, hadesc⟩
      rw [h4 x hi] at hax
      exact hani (Finset.mem_singleton.mp hax)

theorem CanAddDependency_false_of_descendant (g : DepGraph) (p c : ℕ)
    (hc : c ∈ g.Descendants p) : g.CanAddDependency p c = false := by
  rw [CanAddDependency, if_pos hc]

theorem CanAddDependency_false_of_ancestor (g : DepGraph) (p c : ℕ)
    (hc : c ∈ g.Ancestors p) : g.CanAddDependency p c = false := by
  rw [CanAddDependency]
  by_cases hd : c ∈ g.Descendants p
  · rw [if_pos hd]
  · rw [if_neg hd, if_pos hc]

theorem IsAcyclic_iff (g : DepGraph) :
    g.IsAcyclic = true ↔
      ∀ i < g.TxCount, g.Ancestors i ∩ g.Descendants i = {i} := by
  rw [IsAcyclic, List.all_eq_true]
  constructor
  · intro h i hi
    exact of_decide_eq_true (h i (List.mem_range.mpr hi))
  · intro h i hi
    exact decide_eq_true (h i (List.mem_range.mp hi))

theorem FeeRateSet_empty (g : DepGraph) : g.FeeRateSet ∅ = 0 :=
  Finset.sum_empty

theorem FeeRateSet_union (g : DepGraph) {A B : Finset ℕ} (h : Disjoint A B) :
    g.FeeRateSet (A ∪ B) = g.FeeRateSet A + g.FeeRateSet B :=
  Finset.sum_union h

theorem hasI2_of_bounded (g : DepGraph)
    (hb : ∀ i < g.TxCount, g.Ancestors i ⊆ Finset.range g.TxCount ∧
      g.Descendants i ⊆ Finset.range g.TxCount)
    (h : ∀ i < g.TxCount, ∀ j < g.TxCount,
      (j ∈ g.Ancestors i ↔ i ∈ g.Descendants j)) :
    g.HasI2 := by
  intro i j
  rcases Nat.lt_or_ge i g.TxCount with hi | hi
  · rcases Nat.lt_or_ge j g.TxCount with hj | hj
    · exact h i hi j hj
    · constructor
      · intro hm
        exact absurd (Finset.mem_range.mp ((hb i hi).1 hm)) (Nat.not_lt.mpr hj)
      · intro hm
        exact absurd (lt_of_mem_Descendants hm) (Nat.not_lt.mpr hj)
  · constructor
    · intro hm
      exact absurd (lt_of_mem_Ancestors hm) (Nat.not_lt.mpr hi)
    · intro hm
      rcases Nat.lt_or_ge j g.TxCount with hj | hj
      · exact absurd (Finset.mem_range.mp ((hb j hj).2 hm)) (Nat.not_lt.mpr hi)
      · exact absurd (lt_of_mem_Descendants hm) (Nat.not_lt.mpr hj)

theorem hasI3_of_bounded (g : DepGraph)
    (ha : ∀ i < g.TxCount, ∀ j ∈ g.Ancestors i, ∀ k ∈ g.Ancestors j,
      k ∈ g.Ancestors i)
    (hd : ∀ i < g.TxCount, ∀ j ∈ g.Descendants i, ∀ k ∈ g.Descendants j,
      k ∈ g.Descendants i) :
    g.HasI3 := by
  constructor
  · intro i j k hji hkj
    exact ha i (lt_of_mem_Ancestors hji) j hji k hkj
  · intro i j k hji hkj
    exact hd i (lt_of_mem_Descendants hji) j hji k hkj

end DepGraph

theorem chainG_hasI1 : chainG.HasI1 := by
  unfold DepGraph.HasI1
  decide

theorem chainG_hasI2 : chainG.HasI2 :=
  DepGraph.hasI2_of_bounded chainG (by decide) (by decide)

theorem chainG_hasI3 : chainG.HasI3 :=
  DepGraph.hasI3_of_bounded chainG (by decide) (by decide)

theorem diamondG_hasI1 : diamondG.HasI1 := by
  unfold DepGraph.HasI1
  decide

theorem diamondG_hasI2 : diamondG.HasI2 :=
  DepGraph.hasI2_of_bounded diamondG (by decide) (by decide)

theorem diamondG_hasI3 : diamondG.HasI3 :=
  DepGraph.hasI3_of_bounded diamondG (by decide) (by decide)

theorem diamondG_hasI4 : diamondG.HasI4 := by
  unfold DepGraph.HasI4
  decide

theorem vGraph_hasI1 : vGraph.HasI1 := by
  unfold DepGraph.HasI1
  decide

theorem vGraph_hasI2 : vGraph.HasI2 :=
  DepGraph.hasI2_of_bounded vGraph (by decide) (by decide)

theorem vGraph_hasI3 : vGraph.HasI3 :=
  DepGraph.hasI3_of_bounded vGraph (by decide) (by decide)

theorem vGraph_hasI4 : vGraph.HasI4 := by
  unfold DepGraph.HasI4
  decide

/-- C1: for every cluster whose direct-parent relation is acyclic and
listed in topological order (every direct parent of index i has an index
below i), the constructor `DepGraph(cluster)` produces, for every index
i, `Ancestors(i)` equal to the reflexive-transitive closure of the
direct-parent relation starting from i (that is, i itself united with
the transitive closure), `Descendants(j)` equal to the set of all i with
j in `Ancestors(i)`, and the invariants I1, I2 and I3 hold. -/
theorem claim_C1_ofCluster_transitive_closure (cluster : Cluster)
    (htopo : ∀ i < cluster.length, ∀ p ∈ dparents cluster i, p < i) :
    (∀ i < (DepGraph.ofCluster cluster).TxCount, ∀ b : ℕ,
        b ∈ (DepGraph.ofCluster cluster).Ancestors i ↔
          Relation.ReflTransGen (dpEdge cluster) i b) ∧
    (∀ j i : ℕ, i ∈ (DepGraph.ofCluster cluster).Descendants j ↔
        i < (DepGraph.ofCluster cluster).TxCount ∧
          j ∈ (DepGraph.ofCluster cluster).Ancestors i) ∧
    (DepGraph.ofCluster cluster).HasI1 ∧ (DepGraph.ofCluster cluster).HasI2 ∧
    (DepGraph.ofCluster cluster).HasI3 := by
  refine ⟨?_, ?_, DepGraph.ofCluster_hasI1 cluster, DepGraph.ofCluster_hasI2 htopo,
    DepGraph.ofCluster_hasI3 cluster⟩
  · intro i hi b
    rw [DepGraph.TxCount_ofCluster] at hi
    rw [DepGraph.mem_Ancestors_ofCluster cluster hi b]
    exact (rtg_dpEdge_iff_cluEdge htopo hi).symm
  · intro j i
    rcases Nat.lt_or_ge j cluster.length with hj | hj
    · rw [DepGraph.mem_Descendants_ofCluster cluster hj i,
        DepGraph.TxCount_ofCluster]
    · have hd : (DepGraph.ofCluster cluster).Descendants j = ∅ :=
        DepGraph.Descendants_eq_empty_of_le
          (by rw [DepGraph.TxCount_ofCluster]; exact hj)
      rw [hd]
      simp only [Finset.not_mem_empty, false_iff, not_and]
      intro hi hanc
      have hle := DepGraph.ofCluster_anc_le htopo hanc
      rw [DepGraph.TxCount_ofCluster] at hi
      omega

/-- Witness for C1: the linear chain cluster 0 → 1 → 2 is in topological
order and the constructed graph satisfies I1. -/
theorem claim_C1_witness :
    (∀ i < chainCluster.length, ∀ p ∈ dparents chainCluster i, p < i) ∧
      (DepGraph.ofCluster chainCluster).HasI1 :=
  ⟨by decide,
   (claim_C1_ofCluster_transitive_closure chainCluster (by decide)).2.2.1⟩

/-- C2: for every graph satisfying I1, I2 and I3 and valid indices
parent and child, `AddDependency(parent, child)` again satisfies I1, I2
and I3, and afterwards child is a descendant of parent and parent an
ancestor of child. -/
theorem claim_C2_addDependency_preserves_invariants (g : DepGraph)
    (parent child : ℕ) (h1 : g.HasI1) (h2 : g.HasI2) (h3 : g.HasI3)
    (hp : parent < g.TxCount) (hc : child < g.TxCount) :
    (g.AddDependency parent child).HasI1 ∧
    (g.AddDependency parent child).HasI2 ∧
    (g.AddDependency parent child).HasI3 ∧
    child ∈ (g.AddDependency parent child).Descendants parent ∧
    parent ∈ (g.AddDependency parent child).Ancestors child :=
  ⟨DepGraph.hasI1_AddDependency g parent child h1,
   DepGraph.hasI2_AddDependency g parent child h2,
   DepGraph.hasI3_AddDependency g parent child h2 h3,
   (DepGraph.AddDependency_new_edge g parent child h1 h2 hp hc).1,
   (DepGraph.AddDependency_new_edge g parent child h1 h2 hp hc).2⟩

/-- Witness for C2 on the linear chain graph, adding dependency 0 → 2. -/
theorem claim_C2_witness :
    chainG.HasI1 ∧ 0 < chainG.TxCount ∧ 2 < chainG.TxCount ∧
    2 ∈ (chainG.AddDependency 0 2).Descendants 0 :=
  ⟨chainG_hasI1, by decide, by decide,
   (claim_C2_addDependency_preserves_invariants chainG 0 2 chainG_hasI1
     chainG_hasI2 chainG_hasI3 (by decide) (by decide)).2.2.2.1⟩

/-- C3 counterexample: the cluster listing the chain 2 → 1 → 0 against
topological order (the direct parent of index 0 is index 1 ≥ 0) is
acyclic, yet the constructor produces the COMPLETE transitive closure —
`Ancestors(0) = {0,1,2}`, not a strict subset — so no index has an
incomplete ancestor set, contradicting the claim at its own scenario. -/
theorem claim_C3_counterexample :
    (¬ ∀ p ∈ dparents revChainCluster 0, p < 0) ∧
    (DepGraph.ofCluster revChainCluster).Ancestors 0 = {0, 1, 2} ∧
    (DepGraph.ofCluster revChainCluster).Ancestors 1 = {1, 2} ∧
    (DepGraph.ofCluster revChainCluster).Ancestors 2 = {2} ∧
    (DepGraph.ofCluster revChainCluster).Descendants 2 = {0, 1, 2} ∧
    (DepGraph.ofCluster revChainCluster).IsAcyclic = true := by
  decide

/-- C3 amended: for every cluster whose direct-parent sets are in range
— whether or not the input is in topological order — the constructor
produces the complete reflexive-transitive closure of the (index-guarded)
direct-parent relation and the exact inverse descendant sets; no error
is raised and none is needed.  The propagation sweep is a
Floyd–Warshall-style closure over intermediate indices 0..N-1, which is
order-independent. -/
theorem claim_C3_amended_ofCluster_any_order (cluster : Cluster)
    (hrange : ∀ i < cluster.length,
      dparents cluster i ⊆ Finset.range cluster.length) :
    (∀ i < (DepGraph.ofCluster cluster).TxCount, ∀ b : ℕ,
        b ∈ (DepGraph.ofCluster cluster).Ancestors i ↔
          Relation.ReflTransGen (cluEdge cluster) i b) ∧
    (∀ j i : ℕ, i ∈ (DepGraph.ofCluster cluster).Descendants j ↔
        i < (DepGraph.ofCluster cluster).TxCount ∧
          j ∈ (DepGraph.ofCluster cluster).Ancestors i) := by
  constructor
  · intro i hi b
    rw [DepGraph.TxCount_ofCluster] at hi
    exact DepGraph.mem_Ancestors_ofCluster cluster hi b
  · intro j i
    rcases Nat.lt_or_ge j cluster.length with hj | hj
    · rw [DepGraph.mem_Descendants_ofCluster cluster hj i,
        DepGraph.TxCount_ofCluster]
    · have hd : (DepGraph.ofCluster cluster).Descendants j = ∅ :=
        DepGraph.Descendants_eq_empty_of_le
          (by rw [DepGraph.TxCount_ofCluster]; exact hj)
      rw [hd]
      simp only [Finset.not_mem_empty, false_iff, not_and]
      intro hi hanc
      rw [DepGraph.TxCount_ofCluster] at hi
      have hr := (DepGraph.mem_Ancestors_ofCluster cluster hi j).mp hanc
      rcases hr.cases_tail with heq | ⟨m, _, hm⟩
      · omega
      · exact absurd (Finset.mem_range.mp (hrange m hm.1 hm.2)) (Nat.not_lt.mpr hj)

/-- Witness for the amended C3 at the non-topologically-ordered reverse
chain cluster. -/
theorem claim_C3_amended_witness :
    (∀ i < revChainCluster.length,
      dparents revChainCluster i ⊆ Finset.range revChainCluster.length) ∧
    (0 ∈ (DepGraph.ofCluster revChainCluster).Descendants 2 ↔
      0 < (DepGraph.ofCluster revChainCluster).TxCount ∧
        2 ∈ (DepGraph.ofCluster revChainCluster).Ancestors 0) :=
  ⟨by decide,
   (claim_C3_amended_ofCluster_any_order revChainCluster (by decide)).2 2 0⟩

/-- C4: for every graph satisfying I1 to I4 and every valid index i, the
set P returned by `GetReducedParents(i)` satisfies P ⊆ Ancestors(i)\{i}
and Ancestors(i)\{i} = P ∪ ⋃ a ∈ P, (Ancestors(a)\{a}); and in the
diamond graph, `GetReducedParents(3) = {1, 2}`. -/
theorem claim_C4_getReducedParents_contract :
    (∀ (g : DepGraph) (i : ℕ), g.HasI1 → g.HasI2 → g.HasI3 → g.HasI4 →
      i < g.TxCount →
      DepGraph.GetReducedParents g i ⊆ (g.Ancestors i).erase i ∧
      (g.Ancestors i).erase i = DepGraph.GetReducedParents g i ∪
        (DepGraph.GetReducedParents g i).biUnion
          (fun a => (g.Ancestors a).erase a)) ∧
    DepGraph.GetReducedParents diamondG 3 = {1, 2} := by
  refine ⟨?_, by decide⟩
  intro g i _ h2 h3 h4 hi
  exact DepGraph.GetReducedParents_contract g i h2 h3 h4 hi

/-- Witness for C4 on the diamond graph at index 3. -/
theorem claim_C4_witness :
    diamondG.HasI1 ∧ 3 < diamondG.TxCount ∧
    DepGraph.GetReducedParents diamondG 3 ⊆ (diamondG.Ancestors 3).erase 3 :=
  ⟨diamondG_hasI1, by decide,
   (claim_C4_getReducedParents_contract.1 diamondG 3 diamondG_hasI1
     diamondG_hasI2 diamondG_hasI3 diamondG_hasI4 (by decide)).1⟩

/-- C5: `CanAddDependency(parent, child)` returns false whenever child
is a descendant of parent (redundant edge) and whenever child is an
ancestor of parent (cycle); and on the linear chain,
`CanAddDependency(2, 0)` returns false. -/
theorem claim_C5_canAddDependency_rejections :
    (∀ (g : DepGraph) (parent child : ℕ),
      parent < g.TxCount → child < g.TxCount →
      child ∈ g.Descendants parent → g.CanAddDependency parent child = false) ∧
    (∀ (g : DepGraph) (parent child : ℕ),
      parent < g.TxCount → child < g.TxCount →
      child ∈ g.Ancestors parent → g.CanAddDependency parent child = false) ∧
    DepGraph.CanAddDependency chainG 2 0 = false := by
  refine ⟨?_, ?_, by decide⟩
  · intro g p c _ _ h
    exact DepGraph.CanAddDependency_false_of_descendant g p c h
  · intro g p c _ _ h
    exact DepGraph.CanAddDependency_false_of_ancestor g p c h

/-- Witness for C5: on the chain, 1 is a descendant of 0, so the edge
0 → 1 is rejected as redundant. -/
theorem claim_C5_witness :
    1 ∈ chainG.Descendants 0 ∧ DepGraph.CanAddDependency chainG 0 1 = false :=
  ⟨by decide,
   claim_C5_canAddDependency_rejections.1 chainG 0 1 (by decide) (by decide)
     (by decide)⟩

/-- C6: `IsAcyclic()` returns true iff every index i has
`Ancestors(i) ∩ Descendants(i) = {i}`; consequently every graph built
from an acyclic topologically-ordered cluster is acyclic. -/
theorem claim_C6_isAcyclic :
    (∀ g : DepGraph, g.IsAcyclic = true ↔
      ∀ i < g.TxCount, g.Ancestors i ∩ g.Descendants i = {i}) ∧
    (∀ cluster : Cluster,
      (∀ i < cluster.length, ∀ p ∈ dparents cluster i, p < i) →
      (DepGraph.ofCluster cluster).IsAcyclic = true) := by
  refine ⟨DepGraph.IsAcyclic_iff, ?_⟩
  intro cluster htopo
  rw [DepGraph.IsAcyclic_iff]
  exact DepGraph.ofCluster_hasI4 htopo

/-- Witness for C6: the chain cluster is topologically ordered and its
graph reports acyclic. -/
theorem claim_C6_witness :
    (∀ i < chainCluster.length, ∀ p ∈ dparents chainCluster i, p < i) ∧
      chainG.IsAcyclic = true :=
  ⟨by decide, claim_C6_isAcyclic.2 chainCluster (by decide)⟩

/-- C7: `AddDependency` is idempotent — calling it twice produces the
same graph as calling it once — and on a graph satisfying I1 to I3 in
which child is already a descendant of parent, it leaves every ancestor
and descendant set (indeed the whole graph) unchanged. -/
theorem claim_C7_addDependency_idempotent (g : DepGraph) (p c : ℕ)
    (h1 : g.HasI1) (h2 : g.HasI2) (h3 : g.HasI3)
    (hp : p < g.TxCount) (hc : c < g.TxCount) :
    (g.AddDependency p c).AddDependency p c = g.AddDependency p c ∧
    (c ∈ g.Descendants p → g.AddDependency p c = g) :=
  ⟨DepGraph.AddDependency_idem g p c,
   fun hcd => DepGraph.AddDependency_no_op g p c h2 h3 hcd⟩

/-- Witness for C7: on the chain, 1 is already a descendant of 0, and
adding the dependency 0 → 1 leaves the graph unchanged. -/
theorem claim_C7_witness :
    chainG.HasI1 ∧ 1 ∈ chainG.Descendants 0 ∧
      chainG.AddDependency 0 1 = chainG :=
  ⟨chainG_hasI1, by decide,
   (claim_C7_addDependency_idempotent chainG 0 1 chainG_hasI1 chainG_hasI2
     chainG_hasI3 (by decide) (by decide)).2 (by decide)⟩

/-- C8: the set-valued feerate query is an additive aggregation —
`FeeRate(∅)` is the zero feerate and `FeeRate(A ∪ B)` equals
`FeeRate(A) + FeeRate(B)` for disjoint sets of valid indices. -/
theorem claim_C8_feeRateSet_additive :
    (∀ g : DepGraph, g.FeeRateSet ∅ = 0) ∧
    (∀ (g : DepGraph) (A B : Finset ℕ),
      A ⊆ Finset.range g.TxCount → B ⊆ Finset.range g.TxCount →
      Disjoint A B →
      g.FeeRateSet (A ∪ B) = g.FeeRateSet A + g.FeeRateSet B) :=
  ⟨DepGraph.FeeRateSet_empty,
   fun g _ _ _ _ h => DepGraph.FeeRateSet_union g h⟩

/-- Witness for C8 on the chain graph with the disjoint sets {0} and
{1, 2}. -/
theorem claim_C8_witness :
    ({0} : Finset ℕ) ⊆ Finset.range chainG.TxCount ∧
    ({1, 2} : Finset ℕ) ⊆ Finset.range chainG.TxCount ∧
    Disjoint ({0} : Finset ℕ) {1, 2} ∧
    chainG.FeeRateSet ({0} ∪ {1, 2}) =
      chainG.FeeRateSet {0} + chainG.FeeRateSet {1, 2} :=
  ⟨by decide, by decide, by decide,
   claim_C8_feeRateSet_additive.2 chainG {0} {1, 2} (by decide) (by decide)
     (by decide)⟩

/-- C9: `CanAddDependency` is strictly stronger than the two documented
rejection rules — in the graph with dependencies 0 → 1 and 2 → 1
(invariants I1 to I4 hold), 2 is neither a descendant nor an ancestor of
0, yet `CanAddDependency(0, 2)` returns false, because the existing
direct edge 0 → 1 would become redundant. -/
theorem claim_C9_canAddDependency_stronger :
    vGraph.HasI1 ∧ vGraph.HasI2 ∧ vGraph.HasI3 ∧ vGraph.HasI4 ∧
    0 < vGraph.TxCount ∧ 2 < vGraph.TxCount ∧
    2 ∉ vGraph.Descendants 0 ∧ 2 ∉ vGraph.Ancestors 0 ∧
    DepGraph.CanAddDependency vGraph 0 2 = false :=
  ⟨vGraph_hasI1, vGraph_hasI2, vGraph_hasI3, vGraph_hasI4,
   by decide, by decide, by decide, by decide, by decide⟩

/-- C10: `AddDependency` has a bounded frame — it changes neither the
transaction count nor any feerate, leaves the ancestor set of every
index outside `Descendants(child)` unchanged, and leaves the descendant
set of every index outside `Ancestors(parent)` unchanged. -/
theorem claim_C10_addDependency_frame (g : DepGraph) (parent child : ℕ)
    (hp : parent < g.TxCount) (hc : child < g.TxCount) :
    (g.AddDependency parent child).TxCount = g.TxCount ∧
    (∀ i : ℕ, (g.AddDependency parent child).FeeRate i = g.FeeRate i) ∧
    (∀ d : ℕ, d ∉ g.Descendants child →
      (g.AddDependency parent child).Ancestors d = g.Ancestors d) ∧
    (∀ a : ℕ, a ∉ g.Ancestors parent →
      (g.AddDependency parent child).Descendants a = g.Descendants a) :=
  ⟨DepGraph.TxCount_AddDependency g parent child,
   DepGraph.FeeRate_AddDependency g parent child,
   fun _ hd => DepGraph.Ancestors_AddDependency_of_not_mem g parent child hd,
   fun _ ha => DepGraph.Descendants_AddDependency_of_not_mem g parent child ha⟩

/-- Witness for C10 on the chain graph with parent 0 and child 2. -/
theorem claim_C10_witness :
    0 < chainG.TxCount ∧ 2 < chainG.TxCount ∧
    (chainG.AddDependency 0 2).TxCount = chainG.TxCount :=
  ⟨by decide, by decide,
   (claim_C10_addDependency_frame chainG 0 2 (by decide) (by decide)).1⟩

example : chainG.Ancestors 2 = {0, 1, 2} := by decide
example : chainG.Descendants 0 = {0, 1, 2} := by decide
example : DepGraph.GetReducedParents chainG 2 = {1} := by decide
example : diamondG.Ancestors 3 = {0, 1, 2, 3} := by decide
example : DepGraph.GetReducedParents diamondG 3 = {1, 2} := by decide
example : DepGraph.CanAddDependency chainG 2 0 = false := by decide
example : DepGraph.CanAddDependency vGraph 0 2 = false := by decide
example : vGraph.Descendants 0 = {0, 1} := by decide
example : (DepGraph.ofCluster revChainCluster).Ancestors 0 = {0, 1, 2} := by decide
